import Mathlib

/-!
Verification of the SPSC ring buffer of `src/include/ringbuffer.h`
(`RingBuffer<T, capacity>`).

The C++ class holds a backing array `data[capacity]`, a read index `head`
(advanced by `Pop`) and a write index `tail` (advanced by `Push`).  We embed
it shallowly: the backing store is a function `Nat → T`, the indices are
naturals, and `size_t` arithmetic is made explicit (`% W` with `W = 2^w` for
the machine word; the only place the code relies on unsigned wraparound is
the subtraction inside `Size`, which we model with an explicit parameter `W`).
-/

namespace RingBuf

/-- State of `RingBuffer<T, capacity>`: backing array `data`, read index
`head`, write index `tail` (names as in the C++ source). -/
structure RingBuffer (T : Type) (N : Nat) where
  data : Nat → T
  head : Nat
  tail : Nat

variable {T : Type} {N : Nat}

/-- `RingBuffer::RingBuffer()` : `head(0), tail(0)`; the backing storage is
left uninitialized in C++, so the model takes an arbitrary initial store. -/
def RingBuffer.init (d0 : Nat → T) : RingBuffer T N :=
  { data := d0, head := 0, tail := 0 }

/-- `RingBuffer::increment` : `(idx + 1) % capacity`. -/
def increment (N : Nat) (idx : Nat) : Nat :=
  (idx + 1) % N

/-- `RingBuffer::Reset()` : `head = 0; tail = 0;`. -/
def RingBuffer.Reset (s : RingBuffer T N) : RingBuffer T N :=
  { s with head := 0, tail := 0 }

/-- `RingBuffer::Push(item)` : if `increment(tail) != head`, write the item
into slot `tail` (the `memcpy`), publish the advanced `tail`, return `true`;
otherwise return `false` with no mutation. -/
def RingBuffer.Push (s : RingBuffer T N) (item : T) : Bool × RingBuffer T N :=
  let current_tail := s.tail
  let next_tail := increment N current_tail
  if next_tail ≠ s.head then
    (true, { s with data := Function.update s.data current_tail item,
                    tail := next_tail })
  else
    (false, s)

/-- `RingBuffer::Pop(item)` : if `head == tail` return `false` (the caller's
output location is not written, hence `none`); otherwise copy slot `head`
out, advance `head`, return the value. -/
def RingBuffer.Pop (s : RingBuffer T N) : Option T × RingBuffer T N :=
  let current_head := s.head
  if current_head = s.tail then
    (none, s)
  else
    (some (s.data current_head), { s with head := increment N current_head })

/-- `RingBuffer::Size()` : `(tail - head + capacity) % capacity` computed in
`size_t` arithmetic; `W` is `2^w` for the machine word width, and the
unsigned subtraction `tail - head` is `(tail + W - head) % W` for any
in-range `head < W`. -/
def RingBuffer.Size (W : Nat) (s : RingBuffer T N) : Nat :=
  ((s.tail + W - s.head) % W + N) % W % N

/-- `RingBuffer::IsEmpty()` : `head == tail`. -/
def RingBuffer.IsEmpty (s : RingBuffer T N) : Bool :=
  s.head == s.tail

/-- `RingBuffer::IsFull()` : `increment(tail) == head`. -/
def RingBuffer.IsFull (s : RingBuffer T N) : Bool :=
  increment N s.tail == s.head

/-- Both indices in range: established by the constructor and preserved by
every operation (the spec's index-range invariant). -/
def inv (s : RingBuffer T N) : Prop :=
  s.head < N ∧ s.tail < N

instance (s : RingBuffer T N) : Decidable (inv s) :=
  inferInstanceAs (Decidable (s.head < N ∧ s.tail < N))

/-- Mathematical occupancy `(tail - head + N) mod N` over the integers,
written in `Nat` as `(tail + N - head) % N` (equal for `head < N`). -/
def szM (s : RingBuffer T N) : Nat :=
  (s.tail + N - s.head) % N

/-- The abstract queue a state represents: the slots from `head` (oldest)
up to but excluding `tail`, in ring order. -/
def contents (s : RingBuffer T N) : List T :=
  (List.range (szM s)).map (fun i => s.data ((s.head + i) % N))

/-- One interleaved operation on the buffer. -/
inductive Op (T : Type) where
  | push (v : T)
  | pop
  | reset
  deriving DecidableEq

/-- Run a sequence of operations, returning the final state, the list of
values accepted by successful `Push` calls and the list of values delivered
by successful `Pop` calls (failed calls contribute nothing). -/
def runTrace (s : RingBuffer T N) : List (Op T) → RingBuffer T N × List T × List T
  | [] => (s, [], [])
  | Op.push v :: ops =>
      let r := s.Push v
      let rest := runTrace r.2 ops
      (rest.1, (if r.1 then [v] else []) ++ rest.2.1, rest.2.2)
  | Op.pop :: ops =>
      let r := s.Pop
      let rest := runTrace r.2 ops
      (rest.1, rest.2.1, (match r.1 with | some v => [v] | none => []) ++ rest.2.2)
  | Op.reset :: ops =>
      runTrace s.Reset ops

/-! ### Modular-arithmetic helpers -/

/-- Reduce `a % N` when `a < 2 * N`: either `a` itself or `a - N`. -/
lemma mod_cases (_hN : 0 < N) {a : Nat} (h : a < 2 * N) :
    a % N = if a < N then a else a - N := by
  rcases Nat.lt_or_ge a N with h1 | h1
  · rw [if_pos h1, Nat.mod_eq_of_lt h1]
  · rw [if_neg (Nat.not_lt.mpr h1), Nat.mod_eq_sub_mod h1,
      Nat.mod_eq_of_lt (by omega)]

lemma increment_lt (hN : 0 < N) (i : Nat) : increment N i < N :=
  Nat.mod_lt _ hN

lemma szM_lt (hN : 0 < N) (s : RingBuffer T N) : szM s < N :=
  Nat.mod_lt _ hN

/-- Occupancy after a successful push: advancing `tail` adds one, as long as
the advanced `tail` does not collide with `head`. -/
lemma szM_succ (hN : 0 < N) {h t : Nat} (hh : h < N) (ht : t < N)
    (hne : (t + 1) % N ≠ h) :
    ((t + 1) % N + N - h) % N = (t + N - h) % N + 1 := by
  have e2 : (t + N - h) % N = if t + N - h < N then t + N - h else t + N - h - N :=
    mod_cases hN (by omega)
  rcases Nat.lt_or_ge (t + 1) N with h1 | h1
  · rw [Nat.mod_eq_of_lt h1] at hne ⊢
    rw [mod_cases hN (show t + 1 + N - h < 2 * N by omega), e2]
    split_ifs <;> omega
  · have h1' : t + 1 = N := by omega
    rw [h1', Nat.mod_self] at hne ⊢
    have hh0 : 0 < h := Nat.pos_of_ne_zero (fun e => hne e.symm)
    rw [mod_cases hN (show 0 + N - h < 2 * N by omega), e2]
    split_ifs <;> omega

/-- Occupancy after a successful pop: advancing `head` removes one, as long
as the buffer was not empty. -/
lemma szM_pred (hN : 0 < N) {h t : Nat} (hh : h < N) (ht : t < N)
    (hne : h ≠ t) :
    (t + N - (h + 1) % N) % N + 1 = (t + N - h) % N := by
  have e2 : (t + N - h) % N = if t + N - h < N then t + N - h else t + N - h - N :=
    mod_cases hN (by omega)
  rcases Nat.lt_or_ge (h + 1) N with h1 | h1
  · rw [Nat.mod_eq_of_lt h1]
    rw [mod_cases hN (show t + N - (h + 1) < 2 * N by omega), e2]
    split_ifs <;> omega
  · have h1' : h + 1 = N := by omega
    rw [h1', Nat.mod_self]
    rw [mod_cases hN (show t + N - 0 < 2 * N by omega), e2]
    split_ifs <;> omega

/-- The slot `szM` steps past `head` is exactly `tail`. -/
lemma head_add_szM (hN : 0 < N) {h t : Nat} (hh : h < N) (ht : t < N) :
    (h + (t + N - h) % N) % N = t := by
  rcases le_or_lt h t with h1 | h1
  · have e : (t + N - h) % N = t - h := by
      rw [mod_cases hN (by omega)]
      split_ifs <;> omega
    rw [e, show h + (t - h) = t by omega, Nat.mod_eq_of_lt ht]
  · have e : (t + N - h) % N = t + N - h := by
      rw [mod_cases hN (by omega)]
      split_ifs <;> omega
    rw [e, show h + (t + N - h) = t + N by omega]
    rw [mod_cases hN (by omega)]
    split_ifs <;> omega

/-- Slots strictly before `tail` in ring order differ from `tail`. -/
lemma head_add_lt_ne (hN : 0 < N) {h t i : Nat} (hh : h < N) (ht : t < N)
    (hi : i < (t + N - h) % N) : (h + i) % N ≠ t := by
  have hd : (t + N - h) % N = if t + N - h < N then t + N - h else t + N - h - N :=
    mod_cases hN (by omega)
  rw [hd] at hi
  have hi2 : h + i < 2 * N := by split_ifs at hi <;> omega
  rw [mod_cases hN hi2]
  split_ifs at hi ⊢ <;> omega

/-! ### Characterizations of the state predicates -/

lemma isFull_eq_true_iff (s : RingBuffer T N) :
    s.IsFull = true ↔ increment N s.tail = s.head := by
  simp [RingBuffer.IsFull]

lemma isEmpty_eq_true_iff (s : RingBuffer T N) :
    s.IsEmpty = true ↔ s.head = s.tail := by
  simp [RingBuffer.IsEmpty]

/-- Under the index-range invariant, emptiness is occupancy zero. -/
lemma szM_eq_zero_iff (hN : 0 < N) (s : RingBuffer T N) (hinv : inv s) :
    szM s = 0 ↔ s.head = s.tail := by
  obtain ⟨hh, ht⟩ := hinv
  unfold szM
  rw [mod_cases hN (by omega)]
  split_ifs <;> omega

/-- Under the index-range invariant, the collision test of `IsFull` is
occupancy `N - 1`. -/
lemma isFull_iff_szM (hN : 0 < N) (s : RingBuffer T N) (hinv : inv s) :
    s.IsFull = true ↔ szM s = N - 1 := by
  obtain ⟨hh, ht⟩ := hinv
  rw [isFull_eq_true_iff]
  unfold increment szM
  rw [mod_cases hN (show s.tail + 1 < 2 * N by omega),
    mod_cases hN (show s.tail + N - s.head < 2 * N by omega)]
  split_ifs <;> omega

/-! ### Effect of the operations on the abstract queue -/

/-- A successful `Push` (advanced `tail` misses `head`) appends the item at
the end of the abstract queue. -/
lemma contents_push (hN : 0 < N) (s : RingBuffer T N) (v : T) (hinv : inv s)
    (hf : increment N s.tail ≠ s.head) :
    contents (⟨Function.update s.data s.tail v, s.head, increment N s.tail⟩ :
        RingBuffer T N) = contents s ++ [v] := by
  obtain ⟨hh, ht⟩ := hinv
  have hsz : szM (⟨Function.update s.data s.tail v, s.head, increment N s.tail⟩ :
      RingBuffer T N) = szM s + 1 := szM_succ hN hh ht hf
  unfold contents
  rw [hsz, List.range_succ, List.map_append]
  congr 1
  · refine List.map_congr_left (fun i hi => ?_)
    rw [List.mem_range] at hi
    exact Function.update_noteq (head_add_lt_ne hN hh ht hi) v s.data
  · simp only [List.map_cons, List.map_nil]
    rw [show (s.head + szM s) % N = s.tail from head_add_szM hN hh ht]
    rw [Function.update_same]

/-- A successful `Pop` (from a non-empty buffer) removes the oldest item
from the front of the abstract queue. -/
lemma contents_pop (hN : 0 < N) (s : RingBuffer T N) (hinv : inv s)
    (hne : s.head ≠ s.tail) :
    contents s =
      s.data s.head ::
        contents (⟨s.data, increment N s.head, s.tail⟩ : RingBuffer T N) := by
  obtain ⟨hh, ht⟩ := hinv
  have hsz : szM (⟨s.data, increment N s.head, s.tail⟩ : RingBuffer T N) + 1 =
      szM s := szM_pred hN hh ht hne
  unfold contents
  rw [← hsz, List.range_succ_eq_map, List.map_cons, List.map_map]
  congr 1
  · rw [Nat.add_zero, Nat.mod_eq_of_lt hh]
  · refine List.map_congr_left (fun i _ => ?_)
    have : (increment N s.head + i) % N = (s.head + (i + 1)) % N := by
      unfold increment
      rw [Nat.mod_add_mod]
      ring_nf
    simp [Function.comp, this]

/-! ### Unfolded shapes of the operations -/

lemma push_succ (s : RingBuffer T N) (v : T) (hf : increment N s.tail ≠ s.head) :
    s.Push v = (true, ⟨Function.update s.data s.tail v, s.head, increment N s.tail⟩) := by
  simp [RingBuffer.Push, hf]

lemma push_fail (s : RingBuffer T N) (v : T) (hf : increment N s.tail = s.head) :
    s.Push v = (false, s) := by
  simp [RingBuffer.Push, hf]

lemma pop_succ (s : RingBuffer T N) (hne : s.head ≠ s.tail) :
    s.Pop = (some (s.data s.head), ⟨s.data, increment N s.head, s.tail⟩) := by
  simp [RingBuffer.Pop, hne]

lemma pop_fail (s : RingBuffer T N) (he : s.head = s.tail) :
    s.Pop = (none, s) := by
  simp [RingBuffer.Pop, he]

/-- Any state with both indices at zero represents the empty queue. -/
lemma contents_zero (d : Nat → T) :
    contents (⟨d, 0, 0⟩ : RingBuffer T N) = [] := by
  unfold contents szM
  simp

/-! ### The index-range invariant is preserved -/

lemma inv_init (hN : 0 < N) (d0 : Nat → T) :
    inv (RingBuffer.init (N := N) d0) :=
  ⟨hN, hN⟩

lemma inv_reset (hN : 0 < N) (s : RingBuffer T N) : inv s.Reset :=
  ⟨hN, hN⟩

lemma inv_push (hN : 0 < N) (s : RingBuffer T N) (v : T) (hinv : inv s) :
    inv (s.Push v).2 := by
  by_cases hf : increment N s.tail = s.head
  · rw [push_fail s v hf]; exact hinv
  · rw [push_succ s v hf]
    exact ⟨hinv.1, increment_lt hN s.tail⟩

lemma inv_pop (hN : 0 < N) (s : RingBuffer T N) (hinv : inv s) :
    inv s.Pop.2 := by
  by_cases he : s.head = s.tail
  · rw [pop_fail s he]; exact hinv
  · rw [pop_succ s he]
    exact ⟨increment_lt hN s.head, hinv.2⟩

lemma runTrace_inv (hN : 0 < N) :
    ∀ (ops : List (Op T)) (s : RingBuffer T N), inv s → inv (runTrace s ops).1 := by
  intro ops
  induction ops with
  | nil => exact fun s hs => hs
  | cons op ops ih =>
    intro s hs
    cases op with
    | push v => exact ih _ (inv_push hN s v hs)
    | pop => exact ih _ (inv_pop hN s hs)
    | reset => exact ih _ (inv_reset hN s)

/-! ### The FIFO trace invariant -/

/-- Along any reset-free trace, the values already delivered followed by the
current queue equal the initial queue followed by the values accepted. -/
lemma runTrace_fifo (hN : 0 < N) :
    ∀ (ops : List (Op T)) (s : RingBuffer T N), inv s → Op.reset ∉ ops →
      contents s ++ (runTrace s ops).2.1 =
        (runTrace s ops).2.2 ++ contents (runTrace s ops).1 := by
  intro ops
  induction ops with
  | nil => simp [runTrace]
  | cons op ops ih =>
    intro s hs hnr
    have hnr' : Op.reset ∉ ops := fun h => hnr (List.mem_cons_of_mem _ h)
    cases op with
    | push v =>
      by_cases hf : increment N s.tail = s.head
      · simp only [runTrace, push_fail s v hf]
        simpa using ih s hs hnr'
      · simp only [runTrace, push_succ s v hf]
        have h2 := ih _ (⟨hs.1, increment_lt hN s.tail⟩ :
          inv (⟨Function.update s.data s.tail v, s.head, increment N s.tail⟩ :
            RingBuffer T N)) hnr'
        rw [contents_push hN s v hs hf] at h2
        simpa [List.append_assoc] using h2
    | pop =>
      by_cases he : s.head = s.tail
      · simp only [runTrace, pop_fail s he]
        simpa using ih s hs hnr'
      · simp only [runTrace, pop_succ s he]
        have h2 := ih _ (⟨increment_lt hN s.head, hs.2⟩ :
          inv (⟨s.data, increment N s.head, s.tail⟩ : RingBuffer T N)) hnr'
        rw [contents_pop hN s hs he]
        simpa using h2
    | reset => exact absurd (List.mem_cons_self _ _) hnr

/-! ### The `size_t` computation of `Size` -/

/-- The abstract queue has exactly `szM` elements. -/
lemma contents_length (s : RingBuffer T N) : (contents s).length = szM s := by
  simp [contents]

/-- Whenever the word is at least twice the capacity, the unsigned
wraparound in `Size` is benign: the computed value is the mathematical
occupancy. -/
lemma size_eq_szM (hN : 0 < N) {W : Nat} (hW : 2 * N ≤ W) (s : RingBuffer T N)
    (hinv : inv s) : s.Size W = szM s := by
  obtain ⟨hh, ht⟩ := hinv
  have hW0 : 0 < W := by omega
  unfold RingBuffer.Size szM
  rcases le_or_lt s.head s.tail with h1 | h1
  · have eA : (s.tail + W - s.head) % W = s.tail - s.head := by
      rw [mod_cases hW0 (by omega)]; split_ifs <;> omega
    rw [eA, Nat.mod_eq_of_lt (show s.tail - s.head + N < W by omega),
      mod_cases hN (show s.tail - s.head + N < 2 * N by omega),
      mod_cases hN (show s.tail + N - s.head < 2 * N by omega)]
    split_ifs <;> omega
  · have eA : (s.tail + W - s.head) % W = s.tail + W - s.head := by
      rw [mod_cases hW0 (by omega)]; split_ifs <;> omega
    have eB : (s.tail + W - s.head + N) % W = s.tail + N - s.head := by
      rw [mod_cases hW0 (by omega)]; split_ifs <;> omega
    rw [eA, eB]

/-- The final `% capacity` keeps `Size` below the capacity, whatever the
indices contain. -/
lemma size_le (hN : 0 < N) (W : Nat) (s : RingBuffer T N) :
    s.Size W ≤ N - 1 := by
  have h := Nat.mod_lt (((s.tail + W - s.head) % W + N) % W) (y := N) hN
  unfold RingBuffer.Size
  omega

/-- With both indices zero, `Size` evaluates to `0` for any word at least
the capacity. -/
lemma size_head0_tail0 {W : Nat} (hW : N ≤ W) (d : Nat → T) (h t : Nat)
    (hh : h = 0) (ht : t = 0) : (⟨d, h, t⟩ : RingBuffer T N).Size W = 0 := by
  subst hh; subst ht
  show ((0 + W - 0) % W + N) % W % N = 0
  rw [show (0 : Nat) + W - 0 = W from by omega, Nat.mod_self, Nat.zero_add]
  rcases eq_or_lt_of_le hW with h1 | h1
  · rw [h1, Nat.mod_self, Nat.zero_mod]
  · rw [Nat.mod_eq_of_lt h1, Nat.mod_self]

/-- Pushing a list of values one by one, while there is room for all of
them, accepts every value and appends them in order. -/
lemma runTrace_pushes (hN : 0 < N) :
    ∀ (vs : List T) (s : RingBuffer T N), inv s → szM s + vs.length ≤ N - 1 →
      (runTrace s (vs.map Op.push)).2.1 = vs ∧
      contents (runTrace s (vs.map Op.push)).1 = contents s ++ vs := by
  intro vs
  induction vs with
  | nil => intro s _ _; simp [runTrace]
  | cons v vs ih =>
    intro s hs hlen
    have hf : increment N s.tail ≠ s.head := by
      intro h
      have h1 := (isFull_iff_szM hN s hs).mp ((isFull_eq_true_iff s).mpr h)
      simp only [List.length_cons] at hlen
      omega
    have hsz : szM (⟨Function.update s.data s.tail v, s.head, increment N s.tail⟩ :
        RingBuffer T N) = szM s + 1 := szM_succ hN hs.1 hs.2 hf
    obtain ⟨e1, e2⟩ := ih
      (⟨Function.update s.data s.tail v, s.head, increment N s.tail⟩ : RingBuffer T N)
      ⟨hs.1, increment_lt hN s.tail⟩
      (by simp only [List.length_cons] at hlen; omega)
    refine ⟨?_, ?_⟩
    · simp only [List.map_cons, runTrace, push_succ s v hf]
      simpa using e1
    · simp only [List.map_cons, runTrace, push_succ s v hf]
      rw [e2, contents_push hN s v hs hf]
      simp

/-- At capacity parameter `1` every trace is a no-op: `Push` always collides
(`increment` maps everything to `0`), `Pop` always finds `head == tail`, and
`Reset` re-zeroes already-zero indices. -/
lemma runTrace_one (d0 : Nat → T) : ∀ ops : List (Op T),
    runTrace (RingBuffer.init (N := 1) d0) ops =
      (RingBuffer.init (N := 1) d0, [], []) := by
  intro ops
  induction ops with
  | nil => rfl
  | cons op ops ih =>
    cases op with
    | push v =>
      have hp : (RingBuffer.init (N := 1) d0).Push v =
          (false, RingBuffer.init (N := 1) d0) := push_fail _ v (by simp [RingBuffer.init, increment])
      simp [runTrace, hp, ih]
    | pop =>
      have hp : (RingBuffer.init (N := 1) d0).Pop =
          (none, RingBuffer.init (N := 1) d0) := pop_fail _ (by simp [RingBuffer.init])
      simp [runTrace, hp, ih]
    | reset =>
      simp only [runTrace]
      exact ih

/-! ### The claims -/

/-- C1: over any sequence of interleaved `Push` and `Pop` calls starting
from the freshly constructed state, the values accepted by successful
pushes equal the values delivered by successful pops followed by what is
still queued — so pops deliver exactly the accepted values, in push order,
with nothing lost, duplicated or reordered (failed calls contribute
nothing). -/
theorem C1_fifo_order (hN : 0 < N) (d0 : Nat → T) (ops : List (Op T))
    (hnr : Op.reset ∉ ops) :
    (runTrace (RingBuffer.init (N := N) d0) ops).2.1 =
      (runTrace (RingBuffer.init (N := N) d0) ops).2.2 ++
        contents (runTrace (RingBuffer.init (N := N) d0) ops).1 := by
  have h := runTrace_fifo hN ops (RingBuffer.init d0) (inv_init hN d0) hnr
  rw [show contents (RingBuffer.init (N := N) d0) = [] from contents_zero d0] at h
  simpa using h

theorem C1_fifo_order_witness :
    (runTrace (RingBuffer.init (N := 4) (fun _ => (0 : Nat)))
        [Op.push 1, Op.push 2, Op.pop, Op.push 3, Op.pop, Op.pop]).2.1 =
      (runTrace (RingBuffer.init (N := 4) (fun _ => (0 : Nat)))
        [Op.push 1, Op.push 2, Op.pop, Op.push 3, Op.pop, Op.pop]).2.2 ++
        contents (runTrace (RingBuffer.init (N := 4) (fun _ => (0 : Nat)))
          [Op.push 1, Op.push 2, Op.pop, Op.push 3, Op.pop, Op.pop]).1 :=
  C1_fifo_order (by decide) (fun _ => 0)
    [Op.push 1, Op.push 2, Op.pop, Op.push 3, Op.pop, Op.pop] (by decide)

/-- C2: in a full state (`increment(tail) == head`, which is what `IsFull`
tests), `Push` returns `false` and the state — indices and every storage
slot — is returned unchanged; the item is not queued. -/
theorem C2_push_full_no_mutation (s : RingBuffer T N) (v : T)
    (h : s.IsFull = true) : s.Push v = (false, s) :=
  push_fail s v ((isFull_eq_true_iff s).mp h)

theorem C2_push_full_no_mutation_witness :
    (⟨fun _ => 0, 0, 1⟩ : RingBuffer Nat 2).Push 5 =
      (false, (⟨fun _ => 0, 0, 1⟩ : RingBuffer Nat 2)) :=
  C2_push_full_no_mutation (⟨fun _ => 0, 0, 1⟩ : RingBuffer Nat 2) 5 (by decide)

/-- C3: in an empty state (`head == tail`, which is what `IsEmpty` tests),
`Pop` returns `false`, the state is unchanged, and no value is produced for
the caller's output location (`none`). -/
theorem C3_pop_empty_no_mutation (s : RingBuffer T N)
    (h : s.IsEmpty = true) : s.Pop = (none, s) :=
  pop_fail s ((isEmpty_eq_true_iff s).mp h)

theorem C3_pop_empty_no_mutation_witness :
    (RingBuffer.init (N := 4) (fun _ => (0 : Nat))).Pop =
      (none, RingBuffer.init (N := 4) (fun _ => (0 : Nat))) :=
  C3_pop_empty_no_mutation (RingBuffer.init (N := 4) (fun _ => (0 : Nat)))
    (by decide)

/-- C4 as stated is false: the unsigned computation of `Size` does not agree
with the mathematical `(tail - head + N) mod N` for *all* in-range index
pairs.  On a 32-bit `size_t` (`W = 2^32`, the Cortex-M3 target named in the
header) with capacity `N = 3 * 2^30`, the in-range pair `head = 0`,
`tail = N - 1` (the state after `N - 1` successful pushes) makes the
intermediate sum `tail - head + N` wrap past the word: the code returns
`2^31 - 1` while the mathematical occupancy is `3 * 2^30 - 1`. -/
theorem C4_size_counterexample :
    inv (⟨fun _ => 0, 0, 3 * 2 ^ 30 - 1⟩ : RingBuffer Nat (3 * 2 ^ 30)) ∧
    (⟨fun _ => 0, 0, 3 * 2 ^ 30 - 1⟩ : RingBuffer Nat (3 * 2 ^ 30)).Size (2 ^ 32) =
      2 ^ 31 - 1 ∧
    szM (⟨fun _ => 0, 0, 3 * 2 ^ 30 - 1⟩ : RingBuffer Nat (3 * 2 ^ 30)) =
      3 * 2 ^ 30 - 1 ∧
    (⟨fun _ => 0, 0, 3 * 2 ^ 30 - 1⟩ : RingBuffer Nat (3 * 2 ^ 30)).Size (2 ^ 32) ≠
      szM (⟨fun _ => 0, 0, 3 * 2 ^ 30 - 1⟩ : RingBuffer Nat (3 * 2 ^ 30)) :=
  ⟨by decide, by decide, by decide, by decide⟩

/-- C4 amended: whenever the word bounds twice the capacity
(`2 * N ≤ 2^w`, true for every physically realizable buffer), the claim
holds in full: (a) on every in-range state `Size` computed in `size_t`
arithmetic equals the mathematical occupancy `szM`; (b) over any reset-free
trace from the fresh state, `Size` of the final state is the number of
values accepted by `Push` minus the number delivered by `Pop`; (c) after
exactly `k ≤ N - 1` pushes on a fresh buffer all pushes succeed and `Size`
is `k`, and at `k = N - 1` the buffer reports full and the next `Push`
fails with no mutation. -/
theorem C4_size_formula (hN : 0 < N) {W : Nat} (hW : 2 * N ≤ W) :
    (∀ s : RingBuffer T N, inv s → s.Size W = szM s) ∧
    (∀ (d0 : Nat → T) (ops : List (Op T)), Op.reset ∉ ops →
      ((runTrace (RingBuffer.init (N := N) d0) ops).1).Size W +
          (runTrace (RingBuffer.init (N := N) d0) ops).2.2.length =
        (runTrace (RingBuffer.init (N := N) d0) ops).2.1.length) ∧
    (∀ (d0 : Nat → T) (vs : List T), vs.length ≤ N - 1 →
      (runTrace (RingBuffer.init (N := N) d0) (vs.map Op.push)).2.1 = vs ∧
      ((runTrace (RingBuffer.init (N := N) d0) (vs.map Op.push)).1).Size W =
        vs.length ∧
      (vs.length = N - 1 →
        ((runTrace (RingBuffer.init (N := N) d0) (vs.map Op.push)).1).IsFull =
          true ∧
        ∀ v, ((runTrace (RingBuffer.init (N := N) d0) (vs.map Op.push)).1).Push v =
          (false, (runTrace (RingBuffer.init (N := N) d0) (vs.map Op.push)).1))) := by
  refine ⟨fun s hs => size_eq_szM hN hW s hs, ?_, ?_⟩
  · intro d0 ops hnr
    have hfin : inv (runTrace (RingBuffer.init (N := N) d0) ops).1 :=
      runTrace_inv hN ops _ (inv_init hN d0)
    have h := runTrace_fifo hN ops (RingBuffer.init d0) (inv_init hN d0) hnr
    rw [show contents (RingBuffer.init (N := N) d0) = [] from contents_zero d0] at h
    have hl := congrArg List.length h
    simp only [List.nil_append, List.length_append, contents_length] at hl
    rw [size_eq_szM hN hW _ hfin]
    omega
  · intro d0 vs hk
    have h0 : szM (RingBuffer.init (N := N) d0) = 0 := by
      rw [← contents_length,
        show contents (RingBuffer.init (N := N) d0) = [] from contents_zero d0]
      rfl
    obtain ⟨e1, e2⟩ := runTrace_pushes hN vs (RingBuffer.init d0) (inv_init hN d0)
      (by omega)
    have hfin : inv (runTrace (RingBuffer.init (N := N) d0) (vs.map Op.push)).1 :=
      runTrace_inv hN _ _ (inv_init hN d0)
    have hsz : szM (runTrace (RingBuffer.init (N := N) d0) (vs.map Op.push)).1 =
        vs.length := by
      rw [← contents_length, e2,
        show contents (RingBuffer.init (N := N) d0) = [] from contents_zero d0]
      simp
    refine ⟨e1, by rw [size_eq_szM hN hW _ hfin, hsz], fun hfull => ?_⟩
    have hful : (runTrace (RingBuffer.init (N := N) d0) (vs.map Op.push)).1.IsFull =
        true := (isFull_iff_szM hN _ hfin).mpr (by omega)
    exact ⟨hful, fun v => push_fail _ v ((isFull_eq_true_iff _).mp hful)⟩

theorem C4_size_formula_witness :
    (⟨fun _ => 0, 3, 1⟩ : RingBuffer Nat 4).Size 8 =
      szM (⟨fun _ => 0, 3, 1⟩ : RingBuffer Nat 4) :=
  (C4_size_formula (by decide) (by decide)).1
    (⟨fun _ => 0, 3, 1⟩ : RingBuffer Nat 4) (by decide)

/-- C5 fails at the positive capacity `N = 1`: the freshly constructed
buffer already reports `IsFull() == true` (the advanced write index `0`
collides with the read index `0`), contradicting the claimed
`IsFull() == false` for every positive `N`. -/
theorem C5_fresh_counterexample :
    (RingBuffer.init (N := 1) (fun _ => (0 : Nat))).IsFull = true := by decide

/-- C5 amended: for every capacity `N ≥ 2` (positive usable capacity) a
freshly constructed buffer is empty, not full, has `Size` zero and its
first `Pop` fails with no output; at `N = 1` everything holds except
`IsFull`, which is already `true`. -/
theorem C5_fresh_state (hN : 2 ≤ N) {W : Nat} (hW : N ≤ W) (d0 : Nat → T) :
    (RingBuffer.init (N := N) d0).IsEmpty = true ∧
    (RingBuffer.init (N := N) d0).IsFull = false ∧
    (RingBuffer.init (N := N) d0).Size W = 0 ∧
    (RingBuffer.init (N := N) d0).Pop = (none, RingBuffer.init (N := N) d0) := by
  refine ⟨rfl, ?_, size_head0_tail0 hW d0 0 0 rfl rfl, pop_fail _ rfl⟩
  simp [RingBuffer.init, RingBuffer.IsFull, increment,
    Nat.mod_eq_of_lt (show 1 < N by omega)]

theorem C5_fresh_state_witness :
    (RingBuffer.init (N := 4) (fun _ => (0 : Nat))).IsEmpty = true ∧
    (RingBuffer.init (N := 4) (fun _ => (0 : Nat))).IsFull = false ∧
    (RingBuffer.init (N := 4) (fun _ => (0 : Nat))).Size 8 = 0 ∧
    (RingBuffer.init (N := 4) (fun _ => (0 : Nat))).Pop =
      (none, RingBuffer.init (N := 4) (fun _ => (0 : Nat))) :=
  C5_fresh_state (by decide) (by decide) (fun _ => 0)

/-- C6: `Reset` zeroes both indices, so from any state whatsoever the
resulting buffer is empty, has `Size` zero, and a subsequent `Pop` fails,
regardless of prior contents and index values. -/
theorem C6_reset_empties (s : RingBuffer T N) {W : Nat} (hW : N ≤ W) :
    s.Reset.IsEmpty = true ∧ s.Reset.Size W = 0 ∧
    s.Reset.Pop = (none, s.Reset) :=
  ⟨rfl, size_head0_tail0 hW s.data 0 0 rfl rfl, pop_fail _ rfl⟩

theorem C6_reset_empties_witness :
    (⟨fun _ => 7, 1, 3⟩ : RingBuffer Nat 4).Reset.IsEmpty = true ∧
    (⟨fun _ => 7, 1, 3⟩ : RingBuffer Nat 4).Reset.Size 8 = 0 ∧
    (⟨fun _ => 7, 1, 3⟩ : RingBuffer Nat 4).Reset.Pop =
      (none, (⟨fun _ => 7, 1, 3⟩ : RingBuffer Nat 4).Reset) :=
  C6_reset_empties (⟨fun _ => 7, 1, 3⟩ : RingBuffer Nat 4) (by decide)

/-- C7: under the index-range invariant the two formulations of fullness
coincide, in every wrap-around case: the collision test of `IsFull` holds
iff the occupancy `(tail - head + N) mod N` — the spec's `size()` — equals
`N - 1`; and it equals the `size_t`-computed `Size` whenever the word
bounds twice the capacity. -/
theorem C7_full_iff_size (hN : 0 < N) (s : RingBuffer T N) (hinv : inv s) :
    (s.IsFull = true ↔ szM s = N - 1) ∧
    ∀ W, 2 * N ≤ W → (s.IsFull = true ↔ s.Size W = N - 1) := by
  refine ⟨isFull_iff_szM hN s hinv, fun W hW => ?_⟩
  rw [size_eq_szM hN hW s hinv]
  exact isFull_iff_szM hN s hinv

theorem C7_full_iff_size_witness :
    ((⟨fun _ => 0, 2, 1⟩ : RingBuffer Nat 4).IsFull = true ↔
      szM (⟨fun _ => 0, 2, 1⟩ : RingBuffer Nat 4) = 3) :=
  (C7_full_iff_size (by decide) (⟨fun _ => 0, 2, 1⟩ : RingBuffer Nat 4)
    (by decide)).1

/-- C8: both indices stay in `[0, N)` in every state reachable from the
fresh buffer by any sequence of `Push`, `Pop` and `Reset` calls, and
consequently `Size` never exceeds `N - 1` for any word `W` (it can never be
negative: it is a natural number). -/
theorem C8_index_invariant (hN : 0 < N) (d0 : Nat → T) (ops : List (Op T)) :
    inv ((runTrace (RingBuffer.init (N := N) d0) ops).1) ∧
    ∀ W, ((runTrace (RingBuffer.init (N := N) d0) ops).1).Size W ≤ N - 1 :=
  ⟨runTrace_inv hN ops _ (inv_init hN d0), fun W => size_le hN W _⟩

theorem C8_index_invariant_witness :
    inv ((runTrace (RingBuffer.init (N := 3) (fun _ => (0 : Nat)))
      [Op.push 1, Op.push 2, Op.reset, Op.push 3, Op.pop]).1) ∧
    ((runTrace (RingBuffer.init (N := 3) (fun _ => (0 : Nat)))
      [Op.push 1, Op.push 2, Op.reset, Op.push 3, Op.pop]).1).Size 8 ≤ 2 :=
  ⟨(C8_index_invariant (by decide) (fun _ => 0)
      [Op.push 1, Op.push 2, Op.reset, Op.push 3, Op.pop]).1,
    (C8_index_invariant (by decide) (fun _ => 0)
      [Op.push 1, Op.push 2, Op.reset, Op.push 3, Op.pop]).2 8⟩

/-- C10: with capacity parameter `1`, `increment` maps every index to `0`,
the fresh buffer is simultaneously full and empty, `Push` fails without
mutation on every in-range state, and no trace from the fresh buffer ever
accepts or delivers a value: such a buffer can never store anything. -/
theorem C10_capacity_one (d0 : Nat → T) (s : RingBuffer T 1) (hs : s.head < 1)
    (v : T) (ops : List (Op T)) :
    (∀ idx, increment 1 idx = 0) ∧
    (RingBuffer.init (N := 1) d0).IsFull = true ∧
    (RingBuffer.init (N := 1) d0).IsEmpty = true ∧
    s.Push v = (false, s) ∧
    runTrace (RingBuffer.init (N := 1) d0) ops =
      (RingBuffer.init (N := 1) d0, [], []) := by
  refine ⟨fun idx => Nat.mod_one _, ?_, rfl, ?_, runTrace_one d0 ops⟩
  · simp [RingBuffer.init, RingBuffer.IsFull, increment]
  refine push_fail s v ?_
  have h0 : s.head = 0 := by omega
  rw [h0]
  exact Nat.mod_one _

theorem C10_capacity_one_witness :
    (⟨fun _ => 0, 0, 0⟩ : RingBuffer Nat 1).Push 7 =
      (false, (⟨fun _ => 0, 0, 0⟩ : RingBuffer Nat 1)) :=
  (C10_capacity_one (fun _ => 0) (⟨fun _ => 0, 0, 0⟩ : RingBuffer Nat 1)
    (by decide) 7 []).2.2.2.1

end RingBuf
